import Mathlib

/-!
Shallow embedding of the zipfs package (src/unnamed/part_000: the zipfs
package with NewZipFSWithReaderAt, zipFS.Open, processZipFile,
uncompressedFile, compressedFile, zipDir.Readdir, zipRoot).

Modelling conventions:
- Go strings are modelled as lists of characters (GoStr); all Go string
  operations used by the source (strings.TrimRight with cutset "/",
  strings.Split with separator "/", strings.HasPrefix, strings.TrimPrefix,
  byte slicing s[n:]) are embedded as the corresponding character-list
  operations below.
- Byte contents are lists of naturals.
- A panicking type assertion (node.meta.(*zip.File) in pass 2 of
  NewZipFSWithReaderAt) is modelled by Option: the construction returns
  none exactly when the Go code would panic.
- archive/zip is an external collaborator: a zip entry is modelled by the
  fields the source consumes (Name, Mode().IsDir(), Method, the
  decompressed content that a successful entry.Open() stream yields,
  whether entry.Open() succeeds, DataOffset() as an optional value, and
  UncompressedSize64).
-/

/-- Go strings as character lists. -/
abbrev GoStr := List Char

/-- strings.TrimRight(s, "/"): remove all trailing slash characters. -/
def goTrimRightSlash (s : GoStr) : GoStr :=
  (s.reverse.dropWhile (fun c => c = '/')).reverse

/-- strings.Split(s, "/"): split on single-character separator slash.
Go semantics: Split("", "/") = [""], and in general the number of pieces
is the number of slashes plus one. -/
def goSplit : GoStr → List GoStr
  | [] => [[]]
  | c :: rest =>
    match goSplit rest with
    | [] => [[]]
    | g :: gs => if c = '/' then [] :: g :: gs else (c :: g) :: gs

/-- strings.HasPrefix(s, pre) with arguments flipped: pfxOf pre s is true
iff pre is a prefix of s. -/
def pfxOf : GoStr → GoStr → Bool
  | [], _ => true
  | _ :: _, [] => false
  | a :: as, b :: bs => if a = b then pfxOf as bs else false

/-- strings.TrimPrefix(s, pre): drop pre from the front of s when it is a
prefix, otherwise return s unchanged. -/
def goTrimPfx (s pre : GoStr) : GoStr :=
  if pfxOf pre s then s.drop pre.length else s

/-- Compression method of a zip entry: zip.Store or a compressing method
(represented by deflate). -/
inductive Method where
  | store : Method
  | deflate : Method
  deriving DecidableEq, Repr, Inhabited

/-- One archive entry as consumed by the source (a *zip.File): its name,
directory flag (entry.Mode().IsDir()), compression method, the bytes a full
read of a successfully opened decompression stream produces, whether
entry.Open() succeeds, the result of entry.DataOffset() (none models an
error), and entry.UncompressedSize64. -/
structure ZipEntry where
  name : GoStr
  isDir : Bool
  method : Method
  data : List Nat
  openOk : Bool
  dataOffset : Option Nat
  uncompressedSize : Nat
  deriving DecidableEq, Repr, Inhabited

/-- The directory data shared by zipDir and zipRoot: the header (the
originating entry for a zipDir, none for the synthetic root whose header
is zipRootInfo) and the ordered child clones. -/
structure ZipDirData where
  info : Option ZipEntry
  files : List ZipEntry
  deriving DecidableEq, Repr, Inhabited

/-- The metadata stored at a trie node: a *zip.File, a zipDir value, or
the zipRoot value (the Go code stores zipDir and zipRoot by value). -/
inductive Meta where
  | file : ZipEntry → Meta
  | dir : ZipDirData → Meta
  | root : ZipDirData → Meta
  deriving DecidableEq, Repr, Inhabited

/-- Modelled from the spec: the repository's path trie (its source file is
not under src/; spec section 4.1 and the Trie entry of section 3 specify
it). The trie maps absolute path strings to metadata. It is modelled as an
insertion-ordered association list with unique keys: Add inserts or
overwrites the binding at a path, Find is exact lookup, and the subtree
enumeration used by PrefixSearch is given below. -/
abbrev Trie := List (GoStr × Meta)

/-- Modelled from the spec: Trie.Add(path, meta) inserts or overwrites the
node at the path. Overwriting keeps the original position; a new key is
appended, so enumeration order is first-insertion order. -/
def trieAdd : Trie → GoStr → Meta → Trie
  | [], p, m => [(p, m)]
  | (q, m0) :: rest, p, m =>
    if p = q then (q, m) :: rest else (q, m0) :: trieAdd rest p m

/-- Modelled from the spec: Trie.Find(path) is an exact-match lookup. -/
def trieFind : Trie → GoStr → Option Meta
  | [], _ => none
  | (q, m) :: rest, p => if p = q then some m else trieFind rest p

/-- The stored paths of the trie in enumeration order. -/
def trieKeys (t : Trie) : List GoStr := t.map (fun x => x.1)

/-- Modelled from the spec: the segment chain a path denotes in the trie.
Section 3: the trie root node represents the path "/", and a node's full
path is its parent's path plus its own segment separated by a slash. -/
def nodeSegs (p : GoStr) : List GoStr :=
  if p = ['/'] then [] else goSplit (p.drop 1)

/-- Boolean list-prefix test on segment lists. -/
def segsPfx : List GoStr → List GoStr → Bool
  | [], _ => true
  | _ :: _, [] => false
  | a :: as, b :: bs => if a = b then segsPfx as bs else false

/-- Modelled from the spec: Trie.PrefixSearch(pre) returns every stored
full path lying in the subtree rooted at the node position of pre
(including pre itself when populated), in enumeration order. -/
def triePS (t : Trie) (pre : GoStr) : List GoStr :=
  (trieKeys t).filter (fun q => segsPfx (nodeSegs pre) (nodeSegs q))

/-- The path under which pass 1 of NewZipFSWithReaderAt indexes an entry:
"/" + TrimRight(Name, "/") for a directory entry, "/" + Name for a file. -/
def triePath (e : ZipEntry) : GoStr :=
  if e.isDir then '/' :: goTrimRightSlash e.name else '/' :: e.name

/-- The trie after pass 1 of NewZipFSWithReaderAt: one Add per entry, in
archive order (directory entries under their trimmed path, files under
their full name). -/
def pass1Trie : Trie → List ZipEntry → Trie
  | t, [] => t
  | t, e :: es => pass1Trie (trieAdd t (triePath e) (Meta.file e)) es

/-- The stashed directory-entry list that pass 1 accumulates. -/
def dirsOf (entries : List ZipEntry) : List ZipEntry :=
  entries.filter (fun e => e.isDir)

/-- The synthetic root child list that pass 1 accumulates: a clone of
every entry whose trimmed name splits into exactly one segment, in
archive order. -/
def rootFilesOf (entries : List ZipEntry) : List ZipEntry :=
  entries.filter (fun e => (goSplit (goTrimRightSlash e.name)).length = 1)

/-- The filter of the pass-2 inner loop: a prefix-search result dirContent
is skipped when it does not start with "/"+entry.Name or the remainder
after stripping that and trailing slashes splits into more than one
segment (pn stands for entry.Name). -/
def skipCond (pn p : GoStr) : Prop :=
  pfxOf ('/' :: pn) p = false ∨
    (goSplit (goTrimRightSlash (goTrimPfx p ('/' :: pn)))).length > 1

instance (pn p : GoStr) : Decidable (skipCond pn p) :=
  inferInstanceAs (Decidable (Or _ _))

/-- The body of the pass-2 inner loop of NewZipFSWithReaderAt for one
stashed directory entry with name pn, iterating over the prefix-search
result: skip a path when skipCond holds; otherwise look the path up and
assert the metadata is a *zip.File (anything else makes the Go type
assertion panic, modelled by none) and append a clone with the name
rewritten to Name[len(pn):]. -/
def collectChildren (t : Trie) (pn : GoStr) : List GoStr → Option (List ZipEntry)
  | [] => some []
  | p :: ps =>
    if skipCond pn p then
      collectChildren t pn ps
    else
      match trieFind t p with
      | some (Meta.file s) =>
        match collectChildren t pn ps with
        | some rest => some ({ s with name := s.name.drop pn.length } :: rest)
        | none => none
      | _ => none

/-- Pass 2 of NewZipFSWithReaderAt: for every stashed directory entry in
order, build the fake directory from the prefix search of its trimmed path
and re-index the trimmed path with the zipDir value; none models the
panicking run. -/
def pass2 : Trie → List ZipEntry → Option Trie
  | t, [] => some t
  | t, d :: ds =>
    match collectChildren t d.name (triePS t ('/' :: goTrimRightSlash d.name)) with
    | none => none
    | some files =>
      pass2 (trieAdd t ('/' :: goTrimRightSlash d.name) (Meta.dir ⟨some d, files⟩)) ds

/-- The zip filesystem value: the optional io.ReaderAt (modelled as the
archive bytes it exposes) and the trie. -/
structure ZipFS where
  readerAt : Option (List Nat)
  trie : Trie
  deriving DecidableEq, Repr

/-- NewZipFSWithReaderAt: pass 1 over the entries, pass 2 over the stashed
directory entries, then index the synthetic root under "/". none models
the run in which the pass-2 type assertion panics. -/
def NewZipFSWithReaderAt (entries : List ZipEntry) (ra : Option (List Nat)) :
    Option ZipFS :=
  match pass2 (pass1Trie [] entries) (dirsOf entries) with
  | none => none
  | some t => some ⟨ra, trieAdd t ['/'] (Meta.root ⟨none, rootFilesOf entries⟩)⟩

/-- NewZipFS(z) = NewZipFSWithReaderAt(z, nil). -/
def NewZipFS (entries : List ZipEntry) : Option ZipFS :=
  NewZipFSWithReaderAt entries none

/-- Seek whence values: io.SeekStart, io.SeekCurrent, io.SeekEnd. -/
inductive Whence where
  | seekStart : Whence
  | seekCurrent : Whence
  | seekEnd : Whence
  deriving DecidableEq, Repr

/-- The error values the handle layer can surface. -/
inductive SeekErr where
  | negativeOffset : SeekErr
  | seekOnCompressed : SeekErr
  | invalidOnDir : SeekErr
  deriving DecidableEq, Repr

/-- The errors zipFS.Open can return: os.ErrNotExist, an
entry.DataOffset() failure, an entry.Open() failure. -/
inductive OpenErr where
  | notExist : OpenErr
  | offsetErr : OpenErr
  | openErr : OpenErr
  deriving DecidableEq, Repr

/-- uncompressedFile: an io.SectionReader over the supplied io.ReaderAt
(NewSectionReader(readerAt, offset, int64(entry.UncompressedSize64)))
together with the entry. The section reader state is its base, current
absolute offset and limit, as in the Go standard library. -/
structure UncompressedFile where
  src : List Nat
  base : Int
  off : Int
  limit : Int
  entry : ZipEntry
  deriving DecidableEq, Repr

/-- compressedFile: the one-shot decompression stream (its remaining
bytes) plus the entry. -/
structure CompressedFile where
  stream : List Nat
  entry : ZipEntry
  deriving DecidableEq, Repr

/-- A directory handle: the zipDir value (or zipRoot, flagged) obtained
from the trie by value, so its child-list cursor is private to the open
handle. -/
structure DirHandle where
  isRoot : Bool
  info : Option ZipEntry
  files : List ZipEntry
  deriving DecidableEq, Repr

/-- The http.File values zipFS.Open can produce. -/
inductive Handle where
  | uncompressed : UncompressedFile → Handle
  | compressed : CompressedFile → Handle
  | dir : DirHandle → Handle
  deriving DecidableEq, Repr

/-- entry.Open() of archive/zip, an external collaborator: when it
succeeds it yields the decompression stream over the entry's bytes. -/
def openSequential (e : ZipEntry) : Except OpenErr Handle :=
  if e.openOk then Except.ok (Handle.compressed ⟨e.data, e⟩)
  else Except.error OpenErr.openErr

/-- zipFS.processZipFile: when a readerAt was supplied and the method is
zip.Store, build the section-reader handle from DataOffset (propagating a
DataOffset failure); otherwise open the decompression stream (propagating
an Open failure). -/
def processZipFile (fs : ZipFS) (e : ZipEntry) : Except OpenErr Handle :=
  match fs.readerAt with
  | some src =>
    if e.method = Method.store then
      match e.dataOffset with
      | none => Except.error OpenErr.offsetErr
      | some off =>
        Except.ok (Handle.uncompressed
          ⟨src, (off : Int), (off : Int), (off : Int) + e.uncompressedSize, e⟩)
    else openSequential e
  | none => openSequential e

/-- zipFS.Open: reject names without a leading slash as os.ErrNotExist,
look the name up in the trie (a miss is os.ErrNotExist), and dispatch by
metadata kind; zipDir and zipRoot are returned by value, giving the handle
a private copy of the child list. -/
def zipFSOpen (fs : ZipFS) (name : GoStr) : Except OpenErr Handle :=
  if pfxOf ['/'] name = false then Except.error OpenErr.notExist
  else
    match trieFind fs.trie name with
    | none => Except.error OpenErr.notExist
    | some (Meta.file e) => processZipFile fs e
    | some (Meta.dir d) => Except.ok (Handle.dir ⟨false, d.info, d.files⟩)
    | some (Meta.root r) => Except.ok (Handle.dir ⟨true, r.info, r.files⟩)

/-- io.SectionReader.Read: EOF at or past the limit, otherwise read up to
the remaining byte count at the current absolute offset from the
underlying ReaderAt and advance by the number of bytes actually read. -/
def sectionRead (f : UncompressedFile) (n : Nat) : List Nat × UncompressedFile :=
  if f.limit ≤ f.off then ([], f)
  else
    let m := min n (f.limit - f.off).toNat
    let bytes := (f.src.drop f.off.toNat).take m
    (bytes, { f with off := f.off + bytes.length })

/-- io.SectionReader.Seek: translate the offset by the whence anchor,
reject a result before the base, otherwise move and return the new
position relative to the base. -/
def sectionSeek (f : UncompressedFile) (offset : Int) (wh : Whence) :
    Except SeekErr (Int × UncompressedFile) :=
  let o : Int :=
    match wh with
    | Whence.seekStart => offset + f.base
    | Whence.seekCurrent => offset + f.off
    | Whence.seekEnd => offset + f.limit
  if o < f.base then Except.error SeekErr.negativeOffset
  else Except.ok (o - f.base, { f with off := o })

/-- compressedFile.Read: drain the one-shot stream. -/
def compressedRead (f : CompressedFile) (n : Nat) : List Nat × CompressedFile :=
  (f.stream.take n, { f with stream := f.stream.drop n })

/-- compressedFile.Seek: always the unsupported-seek error, unconditionally
on its arguments and on the stream state. -/
def compressedSeek (_f : CompressedFile) (_offset : Int) (_wh : Whence) :
    Except SeekErr (Int × UncompressedFile) :=
  Except.error SeekErr.seekOnCompressed

/-- The result channel of zipDir.Readdir: io.EOF on an exhausted listing,
or the FileInfo snapshots (modelled by the entries themselves). -/
inductive ReaddirErr where
  | eof : ReaddirErr
  deriving DecidableEq, Repr

/-- zipDir.Readdir(count) (zipRoot inherits it): io.EOF when no children
remain; otherwise clamp count to the full length when it is negative or
exceeds what remains, return the first count snapshots and drop them from
the handle's child list. -/
def zipDirReaddir (d : DirHandle) (count : Int) :
    Except ReaddirErr (List ZipEntry) × DirHandle :=
  if d.files.length = 0 then (Except.error ReaddirErr.eof, d)
  else
    let c : Nat :=
      if count < 0 ∨ (d.files.length : Int) < count then d.files.length
      else count.toNat
    (Except.ok (d.files.take c), { d with files := d.files.drop c })

/-- One client operation on an uncompressedFile handle: a Seek or a Read.
Used to quantify over arbitrary interleavings of the two. -/
inductive FOp where
  | seek : Int → Whence → FOp
  | read : Nat → FOp
  deriving DecidableEq, Repr

/-- Run one operation on the section-reader handle; a failed Seek leaves
the handle unchanged, as in the Go code. -/
def runOp (f : UncompressedFile) : FOp → UncompressedFile
  | FOp.seek off wh =>
    match sectionSeek f off wh with
    | Except.ok x => x.2
    | Except.error _ => f
  | FOp.read n => (sectionRead f n).2

/-- Run a sequence of operations on the section-reader handle. -/
def runOps (f : UncompressedFile) : List FOp → UncompressedFile
  | [] => f
  | op :: ops => runOps (runOp f op) ops

/-- Drain the section reader from its current position: one Read of the
whole remaining range. -/
def readAll (f : UncompressedFile) : List Nat :=
  (sectionRead f (f.limit - f.off).toNat).1

/-- The bytes of a full sequential read of the freshly opened
decompression stream of an entry. -/
def seqFullRead (e : ZipEntry) : List Nat :=
  (compressedRead ⟨e.data, e⟩ e.data.length).1

/-- The section-reader handle processZipFile builds for a stored entry
from the supplied readerAt bytes and the DataOffset. -/
def initUF (src : List Nat) (off : Nat) (e : ZipEntry) : UncompressedFile :=
  ⟨src, (off : Int), (off : Int), (off : Int) + e.uncompressedSize, e⟩

/-- The handle state after running ops on the fresh section reader and
then seeking to entry-relative position p from the start. -/
def seekedUF (src : List Nat) (off : Nat) (e : ZipEntry) (ops : List FOp)
    (p : Nat) : UncompressedFile :=
  { runOps (initUF src off e) ops with off := (p : Int) + (off : Int) }

/-- Run a sequence of Readdir calls on one directory handle, collecting
each call's returned child batch (an errored call contributes no batch
content). -/
def runRds : DirHandle → List Int → List (List ZipEntry) × DirHandle
  | d, [] => ([], d)
  | d, c :: cs =>
    let r := zipDirReaddir d c
    let out := match r.1 with
      | Except.ok l => l
      | Except.error _ => []
    let rest := runRds r.2 cs
    (out :: rest.1, rest.2)

/-- Run an interleaved schedule of Readdir calls against two independently
opened directory handles: a step tagged true goes to the first handle,
false to the second. -/
def runTwo : DirHandle → DirHandle → List (Bool × Int) →
    (List (List ZipEntry) × List (List ZipEntry) × DirHandle × DirHandle)
  | d1, d2, [] => ([], [], d1, d2)
  | d1, d2, (side, c) :: s =>
    if side then
      let r := zipDirReaddir d1 c
      let out := match r.1 with
        | Except.ok l => l
        | Except.error _ => []
      let rest := runTwo r.2 d2 s
      (out :: rest.1, rest.2.1, rest.2.2.1, rest.2.2.2)
    else
      let r := zipDirReaddir d2 c
      let out := match r.1 with
        | Except.ok l => l
        | Except.error _ => []
      let rest := runTwo d1 r.2 s
      (rest.1, out :: rest.2.1, rest.2.2.1, rest.2.2.2)

/-- The sub-schedule of an interleaving addressed to the first handle. -/
def schedL (s : List (Bool × Int)) : List Int :=
  s.filterMap (fun x => if x.1 then some x.2 else none)

/-- The sub-schedule of an interleaving addressed to the second handle. -/
def schedR (s : List (Bool × Int)) : List Int :=
  s.filterMap (fun x => if x.1 then none else some x.2)

/-- The clone of e2 that the listing of a directory entry parent contains
when e2's indexed path passes the pass-2 filter: the clone's name is
rewritten to the suffix of e2's name after parent.Name. -/
def childOf (parent e2 : ZipEntry) : Option ZipEntry :=
  if skipCond parent.name (triePath e2) then none
  else some { e2 with name := e2.name.drop parent.name.length }

/-- Stated from the claim's words, for comparison with the code: e2 is
nested exactly one level below the directory whose indexed (trimmed) path
is dpath, i.e. e2's indexed path is dpath, a slash, and one nonempty
slash-free further segment. -/
def specOneLevelBelow (dpath : GoStr) (e2 : ZipEntry) : Prop :=
  pfxOf (dpath ++ ['/']) (triePath e2) = true ∧
    (triePath e2).drop (dpath.length + 1) ≠ [] ∧
    '/' ∉ (triePath e2).drop (dpath.length + 1)

instance (dpath : GoStr) (e2 : ZipEntry) : Decidable (specOneLevelBelow dpath e2) :=
  inferInstanceAs (Decidable (And _ _))

/-! Basic lemmas about the trie operations. -/

theorem trieFind_add_self (t : Trie) (p : GoStr) (m : Meta) :
    trieFind (trieAdd t p m) p = some m := by
  induction t with
  | nil => simp [trieAdd, trieFind]
  | cons hd tl ih =>
    obtain ⟨q, m0⟩ := hd
    by_cases h : p = q
    · simp [trieAdd, trieFind, h]
    · simp [trieAdd, trieFind, h, ih]

theorem trieFind_add_ne (t : Trie) (p q : GoStr) (m : Meta) (h : p ≠ q) :
    trieFind (trieAdd t q m) p = trieFind t p := by
  induction t with
  | nil => simp [trieAdd, trieFind, h]
  | cons hd tl ih =>
    obtain ⟨r, m0⟩ := hd
    by_cases hq : q = r
    · subst hq
      simp [trieAdd, trieFind, h]
    · by_cases hp : p = r
      · simp [trieAdd, trieFind, hq, hp]
      · simp [trieAdd, trieFind, hq, hp, ih]

theorem trieKeys_add_mem : ∀ (t : Trie) (p : GoStr) (m : Meta),
    p ∈ trieKeys t → trieKeys (trieAdd t p m) = trieKeys t
  | [], p, _, h => by simp [trieKeys] at h
  | (q, m0) :: tl, p, m, h => by
    by_cases hp : p = q
    · simp [trieAdd, hp, trieKeys]
    · have h2 : p ∈ trieKeys tl := by
        simp only [trieKeys, List.map_cons, List.mem_cons] at h
        exact h.resolve_left hp
      have ih := trieKeys_add_mem tl p m h2
      simp only [trieAdd, if_neg hp, trieKeys, List.map_cons] at ih ⊢
      rw [ih]

theorem trieKeys_add_not_mem : ∀ (t : Trie) (p : GoStr) (m : Meta),
    p ∉ trieKeys t → trieKeys (trieAdd t p m) = trieKeys t ++ [p]
  | [], _, _, _ => by simp [trieAdd, trieKeys]
  | (q, m0) :: tl, p, m, h => by
    simp only [trieKeys, List.map_cons, List.mem_cons, not_or] at h
    have ih := trieKeys_add_not_mem tl p m h.2
    simp only [trieAdd, if_neg h.1, trieKeys, List.map_cons] at ih ⊢
    rw [ih, List.cons_append]

theorem trieFind_none_of_not_mem : ∀ (t : Trie) (p : GoStr),
    p ∉ trieKeys t → trieFind t p = none
  | [], _, _ => by simp [trieFind]
  | (q, m0) :: tl, p, h => by
    simp only [trieKeys, List.map_cons, List.mem_cons, not_or] at h
    rw [trieFind, if_neg h.1]
    exact trieFind_none_of_not_mem tl p h.2

/-! Lemmas about pass 1. -/

theorem pass1Trie_find_not_mem (es : List ZipEntry) (t : Trie) (p : GoStr)
    (h : ∀ e ∈ es, triePath e ≠ p) :
    trieFind (pass1Trie t es) p = trieFind t p := by
  induction es generalizing t with
  | nil => rfl
  | cons e es ih =>
    have he : triePath e ≠ p := h e (by simp)
    rw [pass1Trie, ih _ (fun x hx => h x (by simp [hx])),
      trieFind_add_ne _ _ _ _ (fun hp => he hp.symm)]

theorem pass1Trie_keys : ∀ (es : List ZipEntry) (t : Trie),
    (es.map triePath).Nodup →
    (∀ e ∈ es, triePath e ∉ trieKeys t) →
    trieKeys (pass1Trie t es) = trieKeys t ++ es.map triePath
  | [], t, _, _ => by simp [pass1Trie]
  | e :: es, t, hnd, hdisj => by
    simp only [List.map_cons, List.nodup_cons] at hnd
    have hstep : trieKeys (trieAdd t (triePath e) (Meta.file e)) =
        trieKeys t ++ [triePath e] :=
      trieKeys_add_not_mem _ _ _ (hdisj e (by simp))
    rw [pass1Trie, pass1Trie_keys es _ hnd.2, hstep]
    · simp
    · intro x hx
      rw [hstep]
      simp only [List.mem_append, List.mem_singleton]
      rintro (hmem | heq)
      · exact hdisj x (by simp [hx]) hmem
      · exact hnd.1 (heq ▸ List.mem_map_of_mem triePath hx)

theorem pass1Trie_find_self : ∀ (es : List ZipEntry) (t : Trie) (e : ZipEntry),
    (es.map triePath).Nodup → e ∈ es →
    trieFind (pass1Trie t es) (triePath e) = some (Meta.file e)
  | [], _, e, _, he => by simp at he
  | a :: es, t, e, hnd, he => by
    simp only [List.map_cons, List.nodup_cons] at hnd
    rcases List.mem_cons.mp he with rfl | hmem
    · rw [pass1Trie, pass1Trie_find_not_mem]
      · exact trieFind_add_self t _ _
      · intro x hx hpx
        exact hnd.1 (hpx ▸ List.mem_map_of_mem triePath hx)
    · rw [pass1Trie]
      exact pass1Trie_find_self es _ e hnd.2 hmem

/-! Lemmas about pass 2. -/

theorem pass2_append (ds1 ds2 : List ZipEntry) (t : Trie) :
    pass2 t (ds1 ++ ds2) = (pass2 t ds1).bind (fun tm => pass2 tm ds2) := by
  induction ds1 generalizing t with
  | nil => simp [pass2]
  | cons d ds ih =>
    rw [List.cons_append, pass2, pass2]
    cases collectChildren t d.name (triePS t ('/' :: goTrimRightSlash d.name)) with
    | none => simp
    | some files => simp [ih]

theorem pass2_find_preserve (ds : List ZipEntry) (t t2 : Trie) (p : GoStr)
    (hp : pass2 t ds = some t2)
    (h : ∀ d ∈ ds, ('/' :: goTrimRightSlash d.name) ≠ p) :
    trieFind t2 p = trieFind t p := by
  induction ds generalizing t with
  | nil => simp [pass2] at hp; rw [hp]
  | cons d ds ih =>
    rw [pass2] at hp
    cases hc : collectChildren t d.name (triePS t ('/' :: goTrimRightSlash d.name)) with
    | none => rw [hc] at hp; simp at hp
    | some files =>
      rw [hc] at hp
      simp only at hp
      rw [ih _ hp (fun x hx => h x (by simp [hx])),
        trieFind_add_ne _ _ _ _ (fun hq => h d (by simp) hq.symm)]

theorem pass2_keys (ds : List ZipEntry) (t t2 : Trie)
    (hp : pass2 t ds = some t2)
    (h : ∀ d ∈ ds, ('/' :: goTrimRightSlash d.name) ∈ trieKeys t) :
    trieKeys t2 = trieKeys t := by
  induction ds generalizing t with
  | nil => simp [pass2] at hp; rw [hp]
  | cons d ds ih =>
    rw [pass2] at hp
    cases hc : collectChildren t d.name (triePS t ('/' :: goTrimRightSlash d.name)) with
    | none => rw [hc] at hp; simp at hp
    | some files =>
      rw [hc] at hp
      simp only at hp
      have hk := trieKeys_add_mem t _ (Meta.dir ⟨some d, files⟩) (h d (by simp))
      rw [ih _ hp, hk]
      intro x hx
      rw [hk]
      exact h x (by simp [hx])

theorem pass2_find_cases (ds : List ZipEntry) (t t2 : Trie) (p : GoStr)
    (hp : pass2 t ds = some t2) :
    trieFind t2 p = trieFind t p ∨ ∃ dd, trieFind t2 p = some (Meta.dir dd) := by
  induction ds generalizing t with
  | nil => simp [pass2] at hp; rw [hp]; left; rfl
  | cons d ds ih =>
    rw [pass2] at hp
    cases hc : collectChildren t d.name (triePS t ('/' :: goTrimRightSlash d.name)) with
    | none => rw [hc] at hp; simp at hp
    | some files =>
      rw [hc] at hp
      simp only at hp
      rcases ih _ hp with heq | hdir
      · by_cases hpq : p = ('/' :: goTrimRightSlash d.name)
        · right
          refine ⟨⟨some d, files⟩, ?_⟩
          rw [heq, hpq, trieFind_add_self]
        · left
          rw [heq, trieFind_add_ne _ _ _ _ hpq]
      · right; exact hdir

/-! Lemmas about the Go string helpers. -/

theorem pfxOf_iff : ∀ (pre s : GoStr), pfxOf pre s = true ↔ ∃ z, s = pre ++ z
  | [], s => ⟨fun _ => ⟨s, rfl⟩, fun _ => rfl⟩
  | _ :: _, [] => by simp [pfxOf]
  | a :: as, b :: bs => by
    by_cases h : a = b
    · subst h
      rw [pfxOf, if_pos rfl, pfxOf_iff as bs]
      constructor
      · rintro ⟨z, rfl⟩
        exact ⟨z, rfl⟩
      · rintro ⟨z, hz⟩
        rw [List.cons_append, List.cons.injEq] at hz
        exact ⟨z, hz.2⟩
    · rw [pfxOf, if_neg h]
      constructor
      · intro hf
        cases hf
      · rintro ⟨z, hz⟩
        rw [List.cons_append, List.cons.injEq] at hz
        exact absurd hz.1.symm h

theorem goSplit_ne_nil : ∀ (s : GoStr), goSplit s ≠ []
  | [] => by simp [goSplit]
  | c :: rest => by
    rw [goSplit]
    cases h : goSplit rest with
    | nil => simp
    | cons g gs => by_cases hc : c = '/' <;> simp [hc]

theorem goSplit_append_slash : ∀ (a b : GoStr),
    goSplit (a ++ '/' :: b) = goSplit a ++ goSplit b
  | [], b => by
    rw [List.nil_append]
    cases h : goSplit b with
    | nil => exact absurd h (goSplit_ne_nil b)
    | cons g gs =>
      conv_lhs => rw [goSplit]
      rw [h]
      simp [goSplit]
  | a :: as, b => by
    have ih := goSplit_append_slash as b
    show goSplit (a :: (as ++ '/' :: b)) = goSplit (a :: as) ++ goSplit b
    conv_lhs => rw [goSplit]
    conv_rhs => rw [goSplit]
    rw [ih]
    cases h : goSplit as with
    | nil => exact absurd h (goSplit_ne_nil as)
    | cons g gs =>
      rw [List.cons_append]
      by_cases hc : a = '/' <;> simp [hc]

theorem goTrimRightSlash_decomp (s : GoStr) :
    ∃ k, s = goTrimRightSlash s ++ List.replicate k '/' := by
  refine ⟨(s.reverse.takeWhile (fun c => c = '/')).length, ?_⟩
  have h1 : s.reverse.takeWhile (fun c => c = '/') =
      List.replicate (s.reverse.takeWhile (fun c => c = '/')).length '/' :=
    List.eq_replicate_of_mem (fun b hb => by
      have hp := List.mem_takeWhile_imp hb
      simpa using hp)
  conv_lhs =>
    rw [← List.reverse_reverse s,
      ← @List.takeWhile_append_dropWhile _ (fun c => c = '/') s.reverse,
      List.reverse_append]
  rw [goTrimRightSlash]
  rw [show (s.reverse.takeWhile (fun c => c = '/')).reverse =
      List.replicate (s.reverse.takeWhile (fun c => c = '/')).length '/' by
    rw [h1, List.reverse_replicate]
    simp]

theorem goTrimRightSlash_decomp_pos (s : GoStr) (h : s ≠ goTrimRightSlash s) :
    ∃ k, 1 ≤ k ∧ s = goTrimRightSlash s ++ List.replicate k '/' := by
  obtain ⟨k, hk⟩ := goTrimRightSlash_decomp s
  refine ⟨k, ?_, hk⟩
  rcases Nat.eq_zero_or_pos k with rfl | hpos
  · rw [List.replicate_zero, List.append_nil] at hk
    exact absurd hk h
  · exact hpos

theorem segsPfx_append_self : ∀ (a b : List GoStr), segsPfx a (a ++ b) = true
  | [], _ => rfl
  | x :: xs, b => by
    rw [List.cons_append, segsPfx, if_pos rfl]
    exact segsPfx_append_self xs b

theorem nodeSegs_cons (tr : GoStr) (h : tr ≠ []) :
    nodeSegs ('/' :: tr) = goSplit tr := by
  rw [nodeSegs, if_neg]
  · rfl
  · intro heq
    rw [List.cons.injEq] at heq
    exact h heq.2

/-- For a directory entry whose name carries at least one trailing slash,
every prefix-search candidate that passes the pass-2 filter lies in the
trie subtree of the entry's trimmed path: the string "/"+Name test implies
the segment-subtree test the prefix search applies. -/
theorem segsPfx_of_pfx (ename tr z : GoStr) (k : Nat)
    (htr : tr ≠ []) (hk : 1 ≤ k) (hdec : ename = tr ++ List.replicate k '/') :
    segsPfx (nodeSegs ('/' :: tr)) (nodeSegs (('/' :: ename) ++ z)) = true := by
  have hne : ename ++ z ≠ [] := by
    intro h0
    rcases List.append_eq_nil.mp h0 with ⟨h1, _⟩
    rw [hdec] at h1
    exact htr (List.append_eq_nil.mp h1).1
  rw [nodeSegs_cons tr htr,
    show ('/' :: ename) ++ z = '/' :: (ename ++ z) from rfl,
    nodeSegs_cons _ hne]
  obtain ⟨k0, rfl⟩ : ∃ k0, k = k0 + 1 := ⟨k - 1, by omega⟩
  have hshape : ename ++ z = tr ++ '/' :: (List.replicate k0 '/' ++ z) := by
    rw [hdec, List.replicate_succ, List.append_assoc]
    rfl
  rw [hshape, goSplit_append_slash]
  exact segsPfx_append_self _ _

/-- Characterization of a successful pass-2 inner loop: the produced child
list is the filter-map of the candidate paths through the skip condition
and the current trie lookup, and every unskipped candidate holds file
metadata. -/
theorem collectChildren_some : ∀ (ps : List GoStr) (t : Trie) (pn : GoStr)
    (l : List ZipEntry), collectChildren t pn ps = some l →
    (l = ps.filterMap (fun p =>
        if skipCond pn p then none
        else match trieFind t p with
          | some (Meta.file s) => some { s with name := s.name.drop pn.length }
          | _ => none)) ∧
    (∀ p ∈ ps, ¬ skipCond pn p → ∃ s, trieFind t p = some (Meta.file s))
  | [], t, pn, l, h => by
    rw [collectChildren] at h
    injection h with h
    subst h
    exact ⟨rfl, by simp⟩
  | p :: ps, t, pn, l, h => by
    rw [collectChildren] at h
    by_cases hs : skipCond pn p
    · rw [if_pos hs] at h
      obtain ⟨h1, h2⟩ := collectChildren_some ps t pn l h
      refine ⟨?_, ?_⟩
      · rw [h1, List.filterMap_cons, if_pos hs]
      · intro q hq hnq
        rcases List.mem_cons.mp hq with rfl | hmem
        · exact absurd hs hnq
        · exact h2 q hmem hnq
    · rw [if_neg hs] at h
      cases hf : trieFind t p with
      | none =>
        rw [hf] at h
        simp at h
      | some m =>
        cases m with
        | file s =>
          rw [hf] at h
          cases hrest : collectChildren t pn ps with
          | none =>
            rw [hrest] at h
            simp at h
          | some rest =>
            rw [hrest] at h
            simp only [Option.some.injEq] at h
            obtain ⟨h1, h2⟩ := collectChildren_some ps t pn rest hrest
            subst h
            refine ⟨?_, ?_⟩
            · rw [List.filterMap_cons, if_neg hs, hf, h1]
            · intro q hq hnq
              rcases List.mem_cons.mp hq with rfl | hmem
              · exact ⟨s, hf⟩
              · exact h2 q hmem hnq
        | dir d =>
          rw [hf] at h
          simp at h
        | root r =>
          rw [hf] at h
          simp at h

/-- filterMap respects pointwise agreement on the list's members. -/
theorem fmCongr {α β : Type} : ∀ (l : List α) (f g : α → Option β),
    (∀ a ∈ l, f a = g a) → l.filterMap f = l.filterMap g
  | [], _, _, _ => rfl
  | a :: l, f, g, h => by
    rw [List.filterMap_cons, List.filterMap_cons, h a (by simp),
      fmCongr l f g (fun x hx => h x (by simp [hx]))]

/-- Filtering a mapped list then filter-mapping equals one filter-map over
the original list. -/
theorem fmFilterMap {α β γ : Type} : ∀ (l : List α) (m : α → β)
    (g : β → Bool) (f : β → Option γ),
    ((l.map m).filter g).filterMap f
      = l.filterMap (fun a => if g (m a) then f (m a) else none)
  | [], _, _, _ => rfl
  | a :: l, m, g, f => by
    rw [List.map_cons, List.filter_cons]
    by_cases hg : g (m a)
    · rw [if_pos hg, List.filterMap_cons, List.filterMap_cons, if_pos hg,
        fmFilterMap l m g f]
    · rw [if_neg hg, List.filterMap_cons, if_neg hg, fmFilterMap l m g f]

/-- C2: for every archive entry list (empty included), when construction
completes, Open("/") succeeds and returns a directory handle whose child
list contains exactly the archive entries whose name, after trimming any
trailing slash, splits into exactly one path segment, in archive-listing
order, independent of any explicit root entry in the archive. -/
theorem C2_root_listing (entries : List ZipEntry) (ra : Option (List Nat))
    (fs : ZipFS) (hc : NewZipFSWithReaderAt entries ra = some fs) :
    zipFSOpen fs ['/'] = Except.ok (Handle.dir
      ⟨true, none,
        entries.filter (fun e => (goSplit (goTrimRightSlash e.name)).length = 1)⟩) := by
  rw [NewZipFSWithReaderAt] at hc
  cases hp : pass2 (pass1Trie [] entries) (dirsOf entries) with
  | none =>
    rw [hp] at hc
    simp at hc
  | some t =>
    rw [hp] at hc
    simp only [Option.some.injEq] at hc
    subst hc
    rw [zipFSOpen, if_neg (by decide)]
    show (match trieFind (trieAdd t ['/'] (Meta.root ⟨none, rootFilesOf entries⟩)) ['/'] with
      | none => Except.error OpenErr.notExist
      | some (Meta.file e) =>
        processZipFile ⟨ra, trieAdd t ['/'] (Meta.root ⟨none, rootFilesOf entries⟩)⟩ e
      | some (Meta.dir d) => Except.ok (Handle.dir ⟨false, d.info, d.files⟩)
      | some (Meta.root r) => Except.ok (Handle.dir ⟨true, r.info, r.files⟩)) = _
    rw [trieFind_add_self]
    rfl

/-- C2 witness: the empty archive constructs, and Open("/") on it returns
the empty root listing. -/
theorem C2_root_listing_witness :
    NewZipFSWithReaderAt [] none =
      some (Option.getD (NewZipFSWithReaderAt [] none) ⟨none, []⟩) ∧
    zipFSOpen (Option.getD (NewZipFSWithReaderAt [] none) ⟨none, []⟩) ['/'] =
      Except.ok (Handle.dir ⟨true, none, []⟩) :=
  ⟨by rfl, C2_root_listing [] none _ (by rfl)⟩

/-- C8: Open rejects every name without a leading slash with the not-found
error (before any successful lookup, for arbitrary filesystem state), and
reports every lookup miss as the not-found error and never as another
error kind. -/
theorem C8_notfound (fs : ZipFS) (name : GoStr) :
    (pfxOf ['/'] name = false → zipFSOpen fs name = Except.error OpenErr.notExist) ∧
    (trieFind fs.trie name = none → zipFSOpen fs name = Except.error OpenErr.notExist) := by
  constructor
  · intro h
    rw [zipFSOpen, if_pos h]
  · intro h
    rw [zipFSOpen]
    by_cases hp : pfxOf ['/'] name = false
    · rw [if_pos hp]
    · rw [if_neg hp, h]

/-- C8 witness: a relative name and an absent absolute name both yield the
not-found error on a concrete filesystem. -/
theorem C8_notfound_witness :
    zipFSOpen ⟨none, []⟩ ['n', 'o'] = Except.error OpenErr.notExist ∧
    zipFSOpen ⟨none, []⟩ ['/', 'x'] = Except.error OpenErr.notExist :=
  ⟨(C8_notfound ⟨none, []⟩ ['n', 'o']).1 (by decide),
   (C8_notfound ⟨none, []⟩ ['/', 'x']).2 (by decide)⟩

/-- C10: there is a structurally valid entry list, one whose subdirectory
entry "a/b/" precedes its parent directory entry "a/", on which
construction does not complete normally: when pass 2 processes "a/", the
prefix-search match "/a/b" already holds the zipDir value written while
processing "a/b/", so the node.meta.(*zip.File) type assertion panics
(modelled by the construction returning none). -/
theorem C10_pass2_panic :
    NewZipFSWithReaderAt
      [⟨['a', '/', 'b', '/'], true, Method.store, [], true, none, 0⟩,
       ⟨['a', '/'], true, Method.store, [], true, none, 0⟩] none = none := by
  decide

/-- C5 counterexample: Readdir(0) on a directory handle with one remaining
child returns an empty batch and consumes nothing, while the claim demands
that every count less than or equal to zero return all remaining children;
the code only treats strictly negative counts that way. -/
theorem C5_counterexample :
    zipDirReaddir
        ⟨false, none, [⟨['x'], false, Method.store, [], true, none, 0⟩]⟩ 0 =
      (Except.ok [],
        ⟨false, none, [⟨['x'], false, Method.store, [], true, none, 0⟩]⟩) := by
  rfl

/-- C5 amended: Readdir(count) returns the next count remaining children
as snapshots and consumes them when 0 ≤ count ≤ remaining (so count = 0
returns an empty batch and consumes nothing), returns all remaining
children when count is strictly negative or exceeds the number remaining,
and, once the child list is exhausted, every call reports the end-of-
listing condition and leaves the handle unchanged, so repeated calls keep
reporting end-of-listing. -/
theorem C5_readdir (d : DirHandle) (count : Int) :
    (d.files = [] → zipDirReaddir d count = (Except.error ReaddirErr.eof, d)) ∧
    (d.files ≠ [] → count < 0 ∨ (d.files.length : Int) < count →
      zipDirReaddir d count = (Except.ok d.files, { d with files := [] })) ∧
    (d.files ≠ [] → 0 ≤ count → count ≤ (d.files.length : Int) →
      zipDirReaddir d count =
        (Except.ok (d.files.take count.toNat),
          { d with files := d.files.drop count.toNat })) := by
  refine ⟨?_, ?_, ?_⟩
  · intro h
    rw [zipDirReaddir, if_pos (by rw [h]; rfl)]
  · intro h hc
    rw [zipDirReaddir, if_neg (by simpa [List.length_eq_zero] using h)]
    simp only [if_pos hc]
    rw [List.take_length, List.drop_length]
  · intro h h0 hc
    rw [zipDirReaddir, if_neg (by simpa [List.length_eq_zero] using h)]
    rw [if_neg (by omega)]

/-- C5 witness: on a two-child handle, Readdir(1) returns the first child
and leaves the second. -/
theorem C5_readdir_witness :
    zipDirReaddir
        ⟨false, none, [⟨['x'], false, Method.store, [], true, none, 0⟩,
          ⟨['y'], false, Method.store, [], true, none, 0⟩]⟩ 1 =
      (Except.ok [⟨['x'], false, Method.store, [], true, none, 0⟩],
        ⟨false, none, [⟨['y'], false, Method.store, [], true, none, 0⟩]⟩) :=
  (C5_readdir
      ⟨false, none, [⟨['x'], false, Method.store, [], true, none, 0⟩,
        ⟨['y'], false, Method.store, [], true, none, 0⟩]⟩ 1).2.2
    (by decide) (by decide) (by decide)

/-- C4: for every file entry stored with a compressing method, Open (with
or without a readerAt) returns the sequential decompressing handle, and
Seek on a compressedFile fails with the unsupported-seek condition for
every handle state (hence regardless of prior Read progress), every
offset, and every whence. -/
theorem C4_seek_compressed (fs : ZipFS) (name : GoStr) (e : ZipEntry)
    (hpfx : pfxOf ['/'] name = true)
    (hfind : trieFind fs.trie name = some (Meta.file e))
    (hm : e.method = Method.deflate) (ho : e.openOk = true) :
    zipFSOpen fs name = Except.ok (Handle.compressed ⟨e.data, e⟩) ∧
    ∀ (f : CompressedFile) (off : Int) (wh : Whence),
      compressedSeek f off wh = Except.error SeekErr.seekOnCompressed := by
  refine ⟨?_, fun f off wh => rfl⟩
  rw [zipFSOpen, if_neg (by simp [hpfx])]
  rw [hfind]
  show processZipFile fs e = _
  cases hra : fs.readerAt with
  | none => simp [processZipFile, hra, openSequential, ho]
  | some src => simp [processZipFile, hra, hm, openSequential, ho]

/-- C4 witness: a concrete compressed entry opens as a compressedFile and
a Seek on it (after a Read) fails with the unsupported-seek error. -/
theorem C4_seek_compressed_witness :
    zipFSOpen ⟨some [9], [(['/', 'x'],
        Meta.file ⟨['x'], false, Method.deflate, [3], true, none, 1⟩)]⟩ ['/', 'x'] =
      Except.ok (Handle.compressed
        ⟨[3], ⟨['x'], false, Method.deflate, [3], true, none, 1⟩⟩) ∧
    compressedSeek
        (compressedRead ⟨[3], ⟨['x'], false, Method.deflate, [3], true, none, 1⟩⟩ 1).2
        0 Whence.seekStart = Except.error SeekErr.seekOnCompressed :=
  ⟨(C4_seek_compressed ⟨some [9], [(['/', 'x'],
        Meta.file ⟨['x'], false, Method.deflate, [3], true, none, 1⟩)]⟩ ['/', 'x']
      ⟨['x'], false, Method.deflate, [3], true, none, 1⟩
      (by decide) (by decide) rfl rfl).1,
   (C4_seek_compressed ⟨some [9], [(['/', 'x'],
        Meta.file ⟨['x'], false, Method.deflate, [3], true, none, 1⟩)]⟩ ['/', 'x']
      ⟨['x'], false, Method.deflate, [3], true, none, 1⟩
      (by decide) (by decide) rfl rfl).2
    (compressedRead ⟨[3], ⟨['x'], false, Method.deflate, [3], true, none, 1⟩⟩ 1).2
    0 Whence.seekStart⟩

/-- C7: Open on a file entry builds the random-access handle exactly when
a readerAt was supplied and the method is Store (succeeding only when
DataOffset does, whose failure is propagated); in every other case it
opens the decompression stream at Open time, propagating its failure. -/
theorem C7_dispatch (fs : ZipFS) (e : ZipEntry) :
    (∀ src, fs.readerAt = some src → e.method = Method.store →
      (∀ off, e.dataOffset = some off →
        processZipFile fs e = Except.ok (Handle.uncompressed (initUF src off e))) ∧
      (e.dataOffset = none →
        processZipFile fs e = Except.error OpenErr.offsetErr)) ∧
    ((fs.readerAt = none ∨ e.method ≠ Method.store) →
      processZipFile fs e = openSequential e) ∧
    (e.openOk = true →
      openSequential e = Except.ok (Handle.compressed ⟨e.data, e⟩)) ∧
    (e.openOk = false → openSequential e = Except.error OpenErr.openErr) ∧
    ((∃ u, processZipFile fs e = Except.ok (Handle.uncompressed u)) ↔
      (fs.readerAt ≠ none ∧ e.method = Method.store ∧ e.dataOffset ≠ none)) := by
  refine ⟨?_, ?_, ?_, ?_, ?_⟩
  · intro src hra hm
    constructor
    · intro off hoff
      simp [processZipFile, hra, hm, hoff, initUF]
    · intro hoff
      simp [processZipFile, hra, hm, hoff]
  · intro h
    cases hra : fs.readerAt with
    | none => simp [processZipFile, hra]
    | some src =>
      rcases h with hra2 | hm
      · rw [hra2] at hra
        cases hra
      · simp [processZipFile, hra, hm]
  · intro ho
    simp [openSequential, ho]
  · intro ho
    simp [openSequential, ho]
  · constructor
    · rintro ⟨u, hu⟩
      cases hra : fs.readerAt with
      | none =>
        simp only [processZipFile, hra, openSequential] at hu
        by_cases ho : e.openOk = true <;> simp [ho] at hu
      | some src =>
        by_cases hm : e.method = Method.store
        · cases hoff : e.dataOffset with
          | none => simp [processZipFile, hra, hm, hoff] at hu
          | some off => exact ⟨by simp [hra], hm, by simp [hoff]⟩
        · simp only [processZipFile, hra, openSequential, if_neg hm] at hu
          by_cases ho : e.openOk = true <;> simp [ho] at hu
    · rintro ⟨hra, hm, hoff⟩
      cases hra2 : fs.readerAt with
      | none => exact absurd hra2 hra
      | some src =>
        cases hoff2 : e.dataOffset with
        | none => exact absurd hoff2 hoff
        | some off =>
          exact ⟨initUF src off e, by simp [processZipFile, hra2, hm, hoff2, initUF]⟩

/-- C7 witness: a stored entry with a readerAt yields the section-reader
handle; the same entry without a readerAt opens sequentially. -/
theorem C7_dispatch_witness :
    processZipFile ⟨some [7], []⟩ ⟨['x'], false, Method.store, [7], true, some 0, 1⟩ =
      Except.ok (Handle.uncompressed
        (initUF [7] 0 ⟨['x'], false, Method.store, [7], true, some 0, 1⟩)) ∧
    processZipFile ⟨none, []⟩ ⟨['x'], false, Method.store, [7], true, some 0, 1⟩ =
      openSequential ⟨['x'], false, Method.store, [7], true, some 0, 1⟩ :=
  ⟨((C7_dispatch ⟨some [7], []⟩ _).1 [7] rfl rfl).1 0 rfl,
   (C7_dispatch ⟨none, []⟩ _).2.1 (Or.inl rfl)⟩

/-- C9: a path that is never indexed by any entry (in particular one that
occurs only as a proper prefix of entry names, an implicit directory) and
is not the root is reported not-found by Open: no directory node is
synthesized for it. -/
theorem C9_implicit_dir (entries : List ZipEntry) (ra : Option (List Nat))
    (fs : ZipFS) (p : GoStr)
    (hc : NewZipFSWithReaderAt entries ra = some fs)
    (hroot : p ≠ ['/'])
    (hnone : ∀ e ∈ entries, triePath e ≠ p) :
    zipFSOpen fs p = Except.error OpenErr.notExist := by
  rw [NewZipFSWithReaderAt] at hc
  cases hp : pass2 (pass1Trie [] entries) (dirsOf entries) with
  | none =>
    rw [hp] at hc
    simp at hc
  | some t =>
    rw [hp] at hc
    simp only [Option.some.injEq] at hc
    subst hc
    have h1 : trieFind (pass1Trie [] entries) p = none := by
      rw [pass1Trie_find_not_mem entries [] p hnone]
      rfl
    have h2 : trieFind t p = none := by
      rw [pass2_find_preserve (dirsOf entries) _ t p hp ?_]
      · exact h1
      · intro d hd
        have hmem := List.mem_filter.mp hd
        have hdir : d.isDir = true := by simpa using hmem.2
        have := hnone d hmem.1
        rw [triePath, if_pos hdir] at this
        exact this
    rw [zipFSOpen]
    by_cases hpx : pfxOf ['/'] p = false
    · rw [if_pos hpx]
    · rw [if_neg hpx]
      show (match trieFind (trieAdd t ['/']
          (Meta.root ⟨none, rootFilesOf entries⟩)) p with
        | none => Except.error OpenErr.notExist
        | some (Meta.file e) =>
          processZipFile ⟨ra, trieAdd t ['/'] (Meta.root ⟨none, rootFilesOf entries⟩)⟩ e
        | some (Meta.dir d) => Except.ok (Handle.dir ⟨false, d.info, d.files⟩)
        | some (Meta.root r) => Except.ok (Handle.dir ⟨true, r.info, r.files⟩)) = _
      rw [trieFind_add_ne _ _ _ _ hroot, h2]

/-- C9 witness: an archive with only the file entry "a/b" yields not-found
for the implicit directory path "/a". -/
theorem C9_implicit_dir_witness :
    zipFSOpen (Option.getD (NewZipFSWithReaderAt
        [⟨['a', '/', 'b'], false, Method.store, [], true, none, 0⟩] none)
      ⟨none, []⟩) ['/', 'a'] = Except.error OpenErr.notExist :=
  C9_implicit_dir [⟨['a', '/', 'b'], false, Method.store, [], true, none, 0⟩]
    none _ ['/', 'a'] (by rfl) (by decide) (by decide)

/-- Every run of Readdir calls on one handle splits the original child
list: the concatenation of everything returned followed by what remains
equals the handle's initial child list, so no child is ever produced
twice and the cursor only moves forward. -/
theorem runRds_conserve : ∀ (cs : List Int) (d : DirHandle),
    (runRds d cs).1.flatten ++ (runRds d cs).2.files = d.files
  | [], d => by simp [runRds]
  | c :: cs, d => by
    rw [runRds]
    by_cases h : d.files.length = 0
    · simp only [zipDirReaddir, if_pos h]
      have ih := runRds_conserve cs d
      simpa using ih
    · simp only [zipDirReaddir, if_neg h]
      have ih := runRds_conserve cs
        { d with files := d.files.drop (if c < 0 ∨ (d.files.length : Int) < c then
            d.files.length else c.toNat) }
      simp only [List.flatten_cons, List.append_assoc]
      rw [ih]
      exact List.take_append_drop _ _

/-- An interleaved schedule against two handles acts on each exactly as
its own sub-schedule run alone: the handles share no cursor state. -/
theorem runTwo_proj : ∀ (s : List (Bool × Int)) (d1 d2 : DirHandle),
    (runTwo d1 d2 s).1 = (runRds d1 (schedL s)).1 ∧
    (runTwo d1 d2 s).2.1 = (runRds d2 (schedR s)).1 ∧
    (runTwo d1 d2 s).2.2.1 = (runRds d1 (schedL s)).2 ∧
    (runTwo d1 d2 s).2.2.2 = (runRds d2 (schedR s)).2
  | [], d1, d2 => by simp [runTwo, runRds, schedL, schedR]
  | (side, c) :: s, d1, d2 => by
    cases side
    · have ih := runTwo_proj s d1 (zipDirReaddir d2 c).2
      simp only [schedL, schedR] at ih
      simp only [runTwo, Bool.false_eq_true, if_neg, ite_false]
      simp only [schedL, schedR, List.filterMap_cons, ite_false, ite_true]
      simp only [runRds]
      exact ⟨ih.1, by rw [ih.2.1], ih.2.2.1, by rw [ih.2.2.2]⟩
    · have ih := runTwo_proj s (zipDirReaddir d1 c).2 d2
      simp only [schedL, schedR] at ih
      simp only [runTwo, ite_true]
      simp only [schedL, schedR, List.filterMap_cons, ite_false, ite_true]
      simp only [runRds]
      exact ⟨by rw [ih.1], ih.2.1, by rw [ih.2.2.1], ih.2.2.2⟩

/-- C6: Readdir consumes only per-open-handle state. On a directory handle
returned by Open with duplicate-free children, every sequence of Readdir
calls returns pairwise-distinct children whose concatenation plus the
remaining cursor is exactly the original child list, and an interleaved
pair of handles opened on the same path each behaves exactly as if run
alone (the zipDir metadata is held in the index by value, so each Open
hands out a private copy of the child list, which this purely functional
embedding reflects). -/
theorem C6_per_handle (fs : ZipFS) (name : GoStr) (d : DirHandle)
    (_hopen : zipFSOpen fs name = Except.ok (Handle.dir d))
    (hnd : d.files.Nodup) :
    (∀ cs, (runRds d cs).1.flatten ++ (runRds d cs).2.files = d.files ∧
      (runRds d cs).1.flatten.Nodup) ∧
    (∀ s, (runTwo d d s).1 = (runRds d (schedL s)).1 ∧
      (runTwo d d s).2.1 = (runRds d (schedR s)).1) := by
  refine ⟨fun cs => ⟨runRds_conserve cs d, ?_⟩,
    fun s => ⟨(runTwo_proj s d d).1, (runTwo_proj s d d).2.1⟩⟩
  have h := runRds_conserve cs d
  rw [← h] at hnd
  exact hnd.of_append_left

/-- C6 witness: a concrete two-child directory handle obtained from Open,
driven by a concrete call sequence and a concrete interleaved schedule. -/
theorem C6_per_handle_witness :
    ((runRds ⟨false, none, [⟨['x'], false, Method.store, [], true, none, 0⟩,
          ⟨['y'], false, Method.store, [], true, none, 0⟩]⟩ [1, -1]).1.flatten ++
        (runRds ⟨false, none, [⟨['x'], false, Method.store, [], true, none, 0⟩,
          ⟨['y'], false, Method.store, [], true, none, 0⟩]⟩ [1, -1]).2.files =
        [⟨['x'], false, Method.store, [], true, none, 0⟩,
          ⟨['y'], false, Method.store, [], true, none, 0⟩] ∧
      (runRds ⟨false, none, [⟨['x'], false, Method.store, [], true, none, 0⟩,
          ⟨['y'], false, Method.store, [], true, none, 0⟩]⟩ [1, -1]).1.flatten.Nodup) ∧
    ((runTwo ⟨false, none, [⟨['x'], false, Method.store, [], true, none, 0⟩,
          ⟨['y'], false, Method.store, [], true, none, 0⟩]⟩
        ⟨false, none, [⟨['x'], false, Method.store, [], true, none, 0⟩,
          ⟨['y'], false, Method.store, [], true, none, 0⟩]⟩
        [(true, 1), (false, -1), (true, -1)]).1 =
      (runRds ⟨false, none, [⟨['x'], false, Method.store, [], true, none, 0⟩,
          ⟨['y'], false, Method.store, [], true, none, 0⟩]⟩
        (schedL [(true, 1), (false, -1), (true, -1)])).1 ∧
    (runTwo ⟨false, none, [⟨['x'], false, Method.store, [], true, none, 0⟩,
          ⟨['y'], false, Method.store, [], true, none, 0⟩]⟩
        ⟨false, none, [⟨['x'], false, Method.store, [], true, none, 0⟩,
          ⟨['y'], false, Method.store, [], true, none, 0⟩]⟩
        [(true, 1), (false, -1), (true, -1)]).2.1 =
      (runRds ⟨false, none, [⟨['x'], false, Method.store, [], true, none, 0⟩,
          ⟨['y'], false, Method.store, [], true, none, 0⟩]⟩
        (schedR [(true, 1), (false, -1), (true, -1)])).1) :=
  ⟨(C6_per_handle ⟨none, [(['/', 'd'], Meta.dir ⟨none,
        [⟨['x'], false, Method.store, [], true, none, 0⟩,
          ⟨['y'], false, Method.store, [], true, none, 0⟩]⟩)]⟩ ['/', 'd']
      ⟨false, none, [⟨['x'], false, Method.store, [], true, none, 0⟩,
        ⟨['y'], false, Method.store, [], true, none, 0⟩]⟩
      (by rfl) (by decide)).1 [1, -1],
   (C6_per_handle ⟨none, [(['/', 'd'], Meta.dir ⟨none,
        [⟨['x'], false, Method.store, [], true, none, 0⟩,
          ⟨['y'], false, Method.store, [], true, none, 0⟩]⟩)]⟩ ['/', 'd']
      ⟨false, none, [⟨['x'], false, Method.store, [], true, none, 0⟩,
        ⟨['y'], false, Method.store, [], true, none, 0⟩]⟩
      (by rfl) (by decide)).2 [(true, 1), (false, -1), (true, -1)]⟩

/-- One operation on a section reader changes only its current offset:
source, base, limit and entry are preserved (a rejected Seek leaves the
handle unchanged entirely). -/
theorem runOp_frame (f : UncompressedFile) (op : FOp) :
    (runOp f op).src = f.src ∧ (runOp f op).base = f.base ∧
    (runOp f op).limit = f.limit ∧ (runOp f op).entry = f.entry := by
  cases op with
  | seek off wh =>
    rw [runOp]
    cases wh with
    | seekStart =>
      simp only [sectionSeek.eq_def]
      by_cases h : off + f.base < f.base
      · rw [if_pos h]
        exact ⟨rfl, rfl, rfl, rfl⟩
      · rw [if_neg h]
        exact ⟨rfl, rfl, rfl, rfl⟩
    | seekCurrent =>
      simp only [sectionSeek.eq_def]
      by_cases h : off + f.off < f.base
      · rw [if_pos h]
        exact ⟨rfl, rfl, rfl, rfl⟩
      · rw [if_neg h]
        exact ⟨rfl, rfl, rfl, rfl⟩
    | seekEnd =>
      simp only [sectionSeek.eq_def]
      by_cases h : off + f.limit < f.base
      · rw [if_pos h]
        exact ⟨rfl, rfl, rfl, rfl⟩
      · rw [if_neg h]
        exact ⟨rfl, rfl, rfl, rfl⟩
  | read n =>
    rw [runOp, sectionRead]
    split
    · exact ⟨rfl, rfl, rfl, rfl⟩
    · exact ⟨rfl, rfl, rfl, rfl⟩

/-- A whole operation sequence preserves the section reader's source,
base, limit and entry. -/
theorem runOps_frame : ∀ (ops : List FOp) (f : UncompressedFile),
    (runOps f ops).src = f.src ∧ (runOps f ops).base = f.base ∧
    (runOps f ops).limit = f.limit ∧ (runOps f ops).entry = f.entry
  | [], f => ⟨rfl, rfl, rfl, rfl⟩
  | op :: ops, f => by
    have h1 := runOp_frame f op
    have h2 := runOps_frame ops (runOp f op)
    rw [runOps]
    exact ⟨h2.1.trans h1.1, h2.2.1.trans h1.2.1, h2.2.2.1.trans h1.2.2.1,
      h2.2.2.2.trans h1.2.2.2⟩

/-- C3: for a stored entry with a supplied random-access source whose
bytes at the data offset agree with the entry's content (the structural
validity the spec assumes), Open builds the section-reader handle; after
any sequence of Seek and Read operations, a Seek from the start to any
valid entry offset p succeeds with position p, and draining the handle
from there yields exactly the bytes of a full sequential decompressing
read of the same entry past p (so p = 0 reproduces the full sequential
read byte for byte). -/
theorem C3_stored_roundtrip (fs : ZipFS) (e : ZipEntry) (src : List Nat)
    (off : Nat)
    (hra : fs.readerAt = some src) (hm : e.method = Method.store)
    (hoff : e.dataOffset = some off)
    (hsz : e.uncompressedSize = e.data.length)
    (hdata : (src.drop off).take e.uncompressedSize = e.data)
    (hopen : e.openOk = true) :
    processZipFile fs e = Except.ok (Handle.uncompressed (initUF src off e)) ∧
    openSequential e = Except.ok (Handle.compressed ⟨e.data, e⟩) ∧
    ∀ (ops : List FOp) (p : Nat), p ≤ e.uncompressedSize →
      sectionSeek (runOps (initUF src off e) ops) (p : Int) Whence.seekStart =
        Except.ok ((p : Int), seekedUF src off e ops p) ∧
      readAll (seekedUF src off e ops p) = (seqFullRead e).drop p := by
  refine ⟨by simp [processZipFile, hra, hm, hoff, initUF],
    by simp [openSequential, hopen], ?_⟩
  intro ops p hple
  obtain ⟨hsrc, hbase, hlimit, hent⟩ := runOps_frame ops (initUF src off e)
  have hb : (runOps (initUF src off e) ops).base = (off : Int) := hbase.trans rfl
  have hl : (runOps (initUF src off e) ops).limit =
      (off : Int) + (e.uncompressedSize : Int) := hlimit.trans rfl
  have hs2 : (runOps (initUF src off e) ops).src = src := hsrc.trans rfl
  constructor
  · simp only [sectionSeek, hb]
    rw [if_neg (by omega)]
    have harith : (p : Int) + (off : Int) - (off : Int) = (p : Int) := by omega
    rw [harith, seekedUF, hb]
  · have hLim : (seekedUF src off e ops p).limit =
        (off : Int) + (e.uncompressedSize : Int) := hl
    have hOff : (seekedUF src off e ops p).off = (p : Int) + (off : Int) := rfl
    have hSrc : (seekedUF src off e ops p).src = src := hs2
    have hseq : seqFullRead e = e.data := by
      rw [seqFullRead, compressedRead, List.take_length]
    rw [readAll, hseq]
    by_cases hps : p = e.uncompressedSize
    · rw [sectionRead, if_pos (by rw [hLim, hOff]; omega)]
      rw [hsz] at hps
      show ([] : List Nat) = List.drop p e.data
      rw [hps, List.drop_length]
    · have hlt : p < e.uncompressedSize := lt_of_le_of_ne hple hps
      rw [sectionRead, if_neg (by rw [hLim, hOff]; omega)]
      simp only [hLim, hOff, hSrc, min_self]
      have h1 : ((p : Int) + (off : Int)).toNat = off + p := by omega
      have h2 : (((off : Int) + (e.uncompressedSize : Int)) -
          ((p : Int) + (off : Int))).toNat = e.uncompressedSize - p := by omega
      rw [h1, h2, ← hdata, List.drop_take, List.drop_drop]

/-- C3 witness: a concrete stored entry over a concrete readerAt, after a
Read, seeking back to offset 1 succeeds and draining yields the tail of
the sequential read. -/
theorem C3_stored_roundtrip_witness :
    processZipFile ⟨some [5, 7, 8], []⟩
        ⟨['a'], false, Method.store, [7, 8], true, some 1, 2⟩ =
      Except.ok (Handle.uncompressed
        (initUF [5, 7, 8] 1 ⟨['a'], false, Method.store, [7, 8], true, some 1, 2⟩)) ∧
    sectionSeek (runOps
        (initUF [5, 7, 8] 1 ⟨['a'], false, Method.store, [7, 8], true, some 1, 2⟩)
        [FOp.read 1]) ((1 : Nat) : Int) Whence.seekStart =
      Except.ok (((1 : Nat) : Int),
        seekedUF [5, 7, 8] 1 ⟨['a'], false, Method.store, [7, 8], true, some 1, 2⟩
          [FOp.read 1] 1) ∧
    readAll (seekedUF [5, 7, 8] 1
        ⟨['a'], false, Method.store, [7, 8], true, some 1, 2⟩ [FOp.read 1] 1) =
      (seqFullRead ⟨['a'], false, Method.store, [7, 8], true, some 1, 2⟩).drop 1 := by
  have h := C3_stored_roundtrip ⟨some [5, 7, 8], []⟩
    ⟨['a'], false, Method.store, [7, 8], true, some 1, 2⟩ [5, 7, 8] 1
    rfl rfl rfl (by decide) (by decide) rfl
  exact ⟨h.1, (h.2.2 [FOp.read 1] 1 (by decide)).1, (h.2.2 [FOp.read 1] 1 (by decide)).2⟩

/-- C1 (amended): for every explicit directory entry whose name carries a
trailing slash and whose trimmed path is nonempty, when the entry paths
are pairwise distinct and construction completes, Open on the trimmed path
returns the directory handle whose child list is exactly the clones of the
entries whose indexed path passes the one-level-below filter of pass 2
(names rewritten to the suffix after the directory's name), in
archive-listing order, and in particular contains no entry nested two or
more levels below. -/
theorem C1_dir_listing (entries : List ZipEntry) (ra : Option (List Nat))
    (fs : ZipFS) (e : ZipEntry)
    (hc : NewZipFSWithReaderAt entries ra = some fs)
    (hnd : (entries.map triePath).Nodup)
    (he : e ∈ entries) (hdir : e.isDir = true)
    (htr : goTrimRightSlash e.name ≠ [])
    (hslash : e.name ≠ goTrimRightSlash e.name) :
    zipFSOpen fs ('/' :: goTrimRightSlash e.name) =
      Except.ok (Handle.dir ⟨false, some e, entries.filterMap (childOf e)⟩) := by
  rw [NewZipFSWithReaderAt] at hc
  cases hp : pass2 (pass1Trie [] entries) (dirsOf entries) with
  | none =>
    rw [hp] at hc
    simp at hc
  | some t =>
    rw [hp] at hc
    simp only [Option.some.injEq] at hc
    subst hc
    have hmemd : e ∈ dirsOf entries := List.mem_filter.mpr ⟨he, by simp [hdir]⟩
    obtain ⟨ds1, ds2, hsplit⟩ := List.append_of_mem hmemd
    rw [hsplit, pass2_append] at hp
    cases hp1 : pass2 (pass1Trie [] entries) ds1 with
    | none =>
      rw [hp1] at hp
      simp at hp
    | some t1 =>
      rw [hp1] at hp
      simp only [Option.bind_some, Option.some_bind] at hp
      rw [pass2] at hp
      cases hcc : collectChildren t1 e.name
          (triePS t1 ('/' :: goTrimRightSlash e.name)) with
      | none =>
        rw [hcc] at hp
        simp at hp
      | some files =>
        rw [hcc] at hp
        simp only at hp
        -- paths of entries are pairwise distinct within dirsOf as well
        have hndd : ((dirsOf entries).map triePath).Nodup :=
          hnd.sublist ((List.filter_sublist entries).map triePath)
        have hndd2 : (ds1.map triePath ++ triePath e :: ds2.map triePath).Nodup := by
          have h0 := hndd
          rw [hsplit] at h0
          simpa using h0
        have hPe : triePath e = '/' :: goTrimRightSlash e.name := by
          rw [triePath, if_pos hdir]
        have hP : ('/' :: goTrimRightSlash e.name) ≠ ['/'] := by
          intro h0
          rw [List.cons.injEq] at h0
          exact htr h0.2
        -- the final lookup at the directory path yields the zipDir built at
        -- the step that processed e
        have hfind : trieFind (trieAdd t ['/']
            (Meta.root ⟨none, rootFilesOf entries⟩))
            ('/' :: goTrimRightSlash e.name) =
            some (Meta.dir ⟨some e, files⟩) := by
          rw [trieFind_add_ne _ _ _ _ hP]
          rw [pass2_find_preserve ds2 _ t _ hp ?_]
          · exact trieFind_add_self t1 _ _
          · intro d hd
            have hdm : d ∈ dirsOf entries := by
              rw [hsplit]
              simp [hd]
            have hddir : d.isDir = true := by
              simpa using (List.mem_filter.mp hdm).2
            have hne : triePath d ≠ triePath e := by
              intro h0
              have hmem2 : triePath e ∈ ds2.map triePath :=
                h0 ▸ List.mem_map_of_mem triePath hd
              have := (List.nodup_cons.mp hndd2.of_append_right).1
              exact this hmem2
            rw [triePath, if_pos hddir] at hne
            rw [hPe] at hne
            exact hne
        -- characterize the child list
        obtain ⟨hEq, hAll⟩ := collectChildren_some _ t1 e.name files hcc
        have hkeys0 : trieKeys (pass1Trie [] entries) = entries.map triePath := by
          have h0 := pass1Trie_keys entries [] hnd (fun e2 _ => by simp [trieKeys])
          simpa [trieKeys] using h0
        have hkeys1 : trieKeys t1 = entries.map triePath := by
          rw [pass2_keys ds1 _ t1 hp1 ?_, hkeys0]
          intro d hd
          have hdm : d ∈ dirsOf entries := by
            rw [hsplit]
            simp [hd]
          have hddir : d.isDir = true := by
            simpa using (List.mem_filter.mp hdm).2
          have hde : d ∈ entries := (List.mem_filter.mp hdm).1
          rw [hkeys0, show ('/' :: goTrimRightSlash d.name) = triePath d by
            rw [triePath, if_pos hddir]]
          exact List.mem_map_of_mem triePath hde
        have hps : triePS t1 ('/' :: goTrimRightSlash e.name) =
            (entries.map triePath).filter
              (fun q => segsPfx (nodeSegs ('/' :: goTrimRightSlash e.name))
                (nodeSegs q)) := by
          rw [triePS, hkeys1]
        obtain ⟨k, hk1, hkdec⟩ := goTrimRightSlash_decomp_pos e.name hslash
        have hfiles : files = entries.filterMap (childOf e) := by
          rw [hEq, hps, fmFilterMap]
          refine fmCongr entries _ _ ?_
          intro e2 he2
          by_cases hskip : skipCond e.name (triePath e2)
          · by_cases hg : segsPfx (nodeSegs ('/' :: goTrimRightSlash e.name))
                (nodeSegs (triePath e2)) = true
            · simp only [childOf, if_pos hskip, if_pos hg]
            · simp only [childOf, if_pos hskip, if_neg hg]
          · have hskip2 := hskip
            rw [skipCond, not_or] at hskip2
            obtain ⟨hnf, hlen⟩ := hskip2
            have hpfx2 : pfxOf ('/' :: e.name) (triePath e2) = true := by
              cases h0 : pfxOf ('/' :: e.name) (triePath e2)
              · exact absurd h0 hnf
              · rfl
            obtain ⟨z, hz⟩ := (pfxOf_iff _ _).mp hpfx2
            have hg : segsPfx (nodeSegs ('/' :: goTrimRightSlash e.name))
                (nodeSegs (triePath e2)) = true := by
              rw [hz]
              exact segsPfx_of_pfx e.name (goTrimRightSlash e.name) z k htr hk1 hkdec
            simp only [childOf, if_pos hg, if_neg hskip]
            have hmemps : triePath e2 ∈ triePS t1 ('/' :: goTrimRightSlash e.name) := by
              rw [hps]
              exact List.mem_filter.mpr ⟨List.mem_map_of_mem triePath he2, hg⟩
            have hT0 : trieFind (pass1Trie [] entries) (triePath e2) =
                some (Meta.file e2) := pass1Trie_find_self entries [] e2 hnd he2
            rcases pass2_find_cases ds1 _ t1 (triePath e2) hp1 with hsame | ⟨dd, hdd⟩
            · rw [hsame, hT0]
            · obtain ⟨s, hfs⟩ := hAll (triePath e2) hmemps hskip
              rw [hfs] at hdd
              simp at hdd
        rw [zipFSOpen, if_neg (by simp [pfxOf])]
        show (match trieFind (trieAdd t ['/']
            (Meta.root ⟨none, rootFilesOf entries⟩))
            ('/' :: goTrimRightSlash e.name) with
          | none => Except.error OpenErr.notExist
          | some (Meta.file e0) =>
            processZipFile ⟨ra, trieAdd t ['/']
              (Meta.root ⟨none, rootFilesOf entries⟩)⟩ e0
          | some (Meta.dir d) => Except.ok (Handle.dir ⟨false, d.info, d.files⟩)
          | some (Meta.root r) => Except.ok (Handle.dir ⟨true, r.info, r.files⟩)) = _
        rw [hfind, hfiles]

/-- C1 witness: the archive [a/, a/b] constructs, and Open("/a") lists
exactly the clone of a/b renamed to b. -/
theorem C1_dir_listing_witness :
    zipFSOpen (Option.getD (NewZipFSWithReaderAt
        [⟨['a', '/'], true, Method.store, [], true, none, 0⟩,
         ⟨['a', '/', 'b'], false, Method.store, [], true, none, 0⟩] none)
      ⟨none, []⟩) ['/', 'a'] =
      Except.ok (Handle.dir ⟨false,
        some ⟨['a', '/'], true, Method.store, [], true, none, 0⟩,
        [⟨['a', '/'], true, Method.store, [], true, none, 0⟩,
         ⟨['a', '/', 'b'], false, Method.store, [], true, none, 0⟩].filterMap
          (childOf ⟨['a', '/'], true, Method.store, [], true, none, 0⟩)⟩) :=
  C1_dir_listing
    [(⟨['a', '/'], true, Method.store, [], true, none, 0⟩ : ZipEntry),
     (⟨['a', '/', 'b'], false, Method.store, [], true, none, 0⟩ : ZipEntry)] none _
    (⟨['a', '/'], true, Method.store, [], true, none, 0⟩ : ZipEntry)
    (by rfl) (by decide) (by decide) rfl (by decide) (by decide)

/-- C1 counterexample: the claim fails as stated. First, for the
directory entry named a with no trailing slash, construction succeeds and
Open("/a") returns a one-child listing (the entry lists itself, renamed to
the empty string) although no archive entry is nested exactly one level
below the directory. Second, with two file entries both named a/x (both
nested exactly one level below the explicit directory a/), the listing
contains only the clone of the later one, not of every such entry. -/
theorem C1_counterexample :
    ((NewZipFSWithReaderAt [⟨['a'], true, Method.store, [], true, none, 0⟩]
          none).map (fun fsv => zipFSOpen fsv ['/', 'a']) =
        some (Except.ok (Handle.dir ⟨false,
          some ⟨['a'], true, Method.store, [], true, none, 0⟩,
          [⟨[], true, Method.store, [], true, none, 0⟩]⟩)) ∧
      ¬ specOneLevelBelow ['/', 'a']
        ⟨['a'], true, Method.store, [], true, none, 0⟩) ∧
    ((NewZipFSWithReaderAt
          [⟨['a', '/', 'x'], false, Method.store, [1], true, none, 1⟩,
           ⟨['a', '/', 'x'], false, Method.store, [2], true, none, 1⟩,
           ⟨['a', '/'], true, Method.store, [], true, none, 0⟩] none).map
        (fun fsv => zipFSOpen fsv ['/', 'a']) =
        some (Except.ok (Handle.dir ⟨false,
          some ⟨['a', '/'], true, Method.store, [], true, none, 0⟩,
          [⟨['x'], false, Method.store, [2], true, none, 1⟩]⟩)) ∧
      specOneLevelBelow ['/', 'a']
        ⟨['a', '/', 'x'], false, Method.store, [1], true, none, 1⟩ ∧
      (⟨['x'], false, Method.store, [1], true, none, 1⟩ : ZipEntry) ∉
        ([⟨['x'], false, Method.store, [2], true, none, 1⟩] : List ZipEntry)) :=
  ⟨⟨rfl, by decide⟩, rfl, by decide, by decide⟩
